import Mathlib

/-!
Verification of the battery-usage analysis core (`analyzer.py` /
`data_processing.py`): change-point segmentation, per-segment gradient and
variability statistics, event-to-reading alignment, the trailing 48-hour
discharge-gradient estimator, linear drain prediction, and the raw-text
parser.  Timestamps are modelled as rational numbers of seconds, battery
values as integers, and exact rational arithmetic stands in for Python
floats.
-/

/-- One battery reading: a timestamp (in seconds) and an integer
percentage value, mirroring the `(datetime, int)` pairs of the source. -/
structure Reading where
  time : ℚ
  value : ℤ
deriving DecidableEq

instance : Inhabited Reading := ⟨⟨0, 0⟩⟩

/-- The last element of a list of readings, `data_points[-1]` in the
source (total, with a default for the empty list the source never hits). -/
def pyLast : List Reading → Reading
  | [] => default
  | [a] => a
  | _ :: b :: rest => pyLast (b :: rest)

/-- `(end.time - start.time).total_seconds() / 3600` from the source:
the duration between two readings in hours. -/
def hoursBetween (a b : Reading) : ℚ := (b.time - a.time) / 3600

/-- The loop body of `calculate_segments`: `cur` is the open segment
(always ending in the head of the remaining list), and the remaining list
starts at the previous reading.  A strict sign reversal
`(value[i]-value[i-1]) * (value[i+1]-value[i]) < 0` closes the current
segment at reading i and reopens a new one at reading i. -/
def segmentsAux : List Reading → List Reading → List (List Reading)
  | cur, a :: b :: c :: rest =>
      if (b.value - a.value) * (c.value - b.value) < 0 then
        (cur ++ [b]) :: segmentsAux [b] (b :: c :: rest)
      else
        segmentsAux (cur ++ [b]) (b :: c :: rest)
  | cur, [_, b] => [cur ++ [b]]
  | cur, _ => [cur]

/-- `calculate_segments` from `analyzer.py`: fewer than 2 points yield no
segments; otherwise the walk starts with the first reading in the open
segment. -/
def calculate_segments (dps : List Reading) : List (List Reading) :=
  match dps with
  | a :: b :: rest => segmentsAux [a] (a :: b :: rest)
  | _ => []

/-- Structural characterization of the segmenter used in the proofs: the
first two alternatives split off `[a, b]` at a reversal at `b`, otherwise
`a` is prepended onto the first segment of the rest. -/
def chop : List Reading → List (List Reading)
  | a :: b :: c :: rest =>
      if (b.value - a.value) * (c.value - b.value) < 0 then
        [a, b] :: chop (b :: c :: rest)
      else
        (chop (b :: c :: rest)).modifyHead (a :: ·)
  | l => [l]

/-- Indices (into the original reading list) at which one segment ends and
the next begins: cumulative sums of segment lengths minus the shared
endpoints. -/
def boundaryIndices : List (List Reading) → List ℕ
  | [] => []
  | [_] => []
  | s :: rest => (s.length - 1) :: (boundaryIndices rest).map (· + (s.length - 1))

/-- Indices of the interior strict sign reversals of a reading list,
computed recursively (index 1 of each suffix, shifted as the walk moves
right). -/
def revIdx : List Reading → List ℕ
  | a :: b :: c :: rest =>
      if (b.value - a.value) * (c.value - b.value) < 0 then
        1 :: (revIdx (b :: c :: rest)).map (· + 1)
      else
        (revIdx (b :: c :: rest)).map (· + 1)
  | _ => []

/-- The spec-side reversal condition at index `i` of a reading list:
`1 <= i <= n-2` and the product of the two adjacent value deltas is
strictly negative. -/
def revCondAt (l : List Reading) (i : ℕ) : Prop :=
  ((l.getD i default).value - (l.getD (i - 1) default).value) *
    ((l.getD (i + 1) default).value - (l.getD i default).value) < 0

/-- Concatenation of the non-first segments with their shared head
dropped. -/
def tailJoin : List (List Reading) → List Reading
  | [] => []
  | s :: rest => s.tail ++ tailJoin rest

/-- Reconstruction of the original reading list from the segments: the
first segment in full, every later segment without its shared head. -/
def joinSegs : List (List Reading) → List Reading
  | [] => []
  | s :: rest => s ++ tailJoin rest

/-- `avg_gradient` of `calculate_segment_metrics`: value change of the
segment divided by its duration in hours, or 0 when the span is zero. -/
def avg_gradient (seg : List Reading) : ℚ :=
  let s := seg.headI
  let e := pyLast seg
  let d := hoursBetween s e
  if d ≠ 0 then ((e.value - s.value : ℤ) : ℚ) / d else 0

/-- The consecutive sub-gradients of a segment, taken only over
sub-intervals of strictly positive duration (`if sub_duration_hours > 0`
in the source). -/
def sub_gradients : List Reading → List ℚ
  | a :: b :: rest =>
      (if 0 < hoursBetween a b
        then [((b.value - a.value : ℤ) : ℚ) / hoursBetween a b] else [])
        ++ sub_gradients (b :: rest)
  | _ => []

/-- Population variance of a list of rationals: mean squared deviation
from the mean (the quantity under the square root in `np.std`). -/
def popVariance (xs : List ℚ) : ℚ :=
  (xs.map (fun x => (x - xs.sum / xs.length) ^ 2)).sum / xs.length

/-- `variability` of `calculate_segment_metrics`: `np.std` (population
standard deviation) of the sub-gradients, or 0 when there are none. -/
noncomputable def variability (seg : List Reading) : ℝ :=
  if sub_gradients seg = [] then 0
  else Real.sqrt (popVariance (sub_gradients seg))

/-- A labeled event, as constructed by `Event.__init__`: the end time is
start plus duration. -/
structure EventT where
  label : String
  color : String
  start_time : ℚ
  duration : ℚ
deriving DecidableEq

/-- `self.end_time = self.start_time + self.duration`. -/
def EventT.end_time (e : EventT) : ℚ := e.start_time + e.duration

/-- One entry of the `event_gradients` output of
`calculate_event_gradients`. -/
structure EventGradient where
  label : String
  gradient : ℚ
  color : String
  start_point : Reading
  end_point : Reading
deriving DecidableEq

/-- The per-event gradient: value change over duration in hours, guarded
by `if duration_hours > 0` (any non-positive span yields 0). -/
def event_avg_gradient (sp ep : Reading) : ℚ :=
  let d := hoursBetween sp ep
  if 0 < d then ((ep.value - sp.value : ℤ) : ℚ) / d else 0

/-- The scan of `min(range(len(data_points)), key=...)`: walk the
remaining readings keeping the first index attaining the minimal absolute
time distance (Python `min` replaces the best only on a strictly smaller
key). -/
def closestIdxAux (t : ℚ) : List Reading → ℕ → ℕ → ℚ → ℕ
  | [], _, bi, _ => bi
  | x :: rest, i, bi, bd =>
      if |x.time - t| < bd then closestIdxAux t rest (i + 1) i |x.time - t|
      else closestIdxAux t rest (i + 1) bi bd

/-- Index of the reading whose timestamp is closest to `t`, first minimum
winning; 0 for an empty list (the source never calls it on one). -/
def closestIdx (dps : List Reading) (t : ℚ) : ℕ :=
  match dps with
  | [] => 0
  | x :: rest => closestIdxAux t rest 1 0 |x.time - t|

/-- The first-argmin specification: `k` is in range, attains the minimum
of `ds`, and strictly beats every earlier index. -/
def isFirstArgmin (ds : List ℚ) (k : ℕ) : Prop :=
  k < ds.length ∧ (∀ j < ds.length, ds.getD k 0 ≤ ds.getD j 0) ∧
    ∀ j < k, ds.getD k 0 < ds.getD j 0

/-- `calculate_event_gradients` from `analyzer.py`: with no readings the
result is empty; otherwise each event is matched to the readings closest
to its start and end times and the guarded gradient is taken across
them. -/
def calculate_event_gradients (dps : List Reading) (events : List EventT) :
    List EventGradient :=
  if dps = [] then []
  else events.map (fun ev =>
    let sp := dps.getD (closestIdx dps ev.start_time) default
    let ep := dps.getD (closestIdx dps ev.end_time) default
    { label := ev.label, gradient := event_avg_gradient sp ep,
      color := ev.color, start_point := sp, end_point := ep })

/-- The loop of `calculate_last_2day_usage_gradient`: consecutive-pair
gradients over strictly positive durations, retaining only those that are
non-positive (discharge or flat). -/
def usage_gradients : List Reading → List ℚ
  | a :: b :: rest =>
      (if 0 < hoursBetween a b then
        (if ((b.value - a.value : ℤ) : ℚ) / hoursBetween a b ≤ 0
          then [((b.value - a.value : ℤ) : ℚ) / hoursBetween a b] else [])
        else []) ++ usage_gradients (b :: rest)
  | _ => []

/-- `calculate_last_2day_usage_gradient` from `analyzer.py`: restrict to
readings within `timedelta(days=2)` (= 172800 seconds) of the last
reading, collect the retained gradients, and return their mean (`np.mean`)
or 0 when none qualify or fewer than 2 readings exist. -/
def calculate_last_2day_usage_gradient (dps : List Reading) : ℚ :=
  if dps.length < 2 then 0
  else
    let last := pyLast dps
    let startp := last.time - 172800
    let usage := dps.filter (fun p => startp ≤ p.time)
    let gs := usage_gradients usage
    if gs = [] then 0 else gs.sum / gs.length

/-- A drain prediction: hours until the extrapolated value reaches zero,
and the resulting drain timestamp. -/
structure Prediction where
  hours_to_drain : ℚ
  drain_time : ℚ
deriving DecidableEq

/-- The prediction branch of `create_prediction_plot`: only a strictly
negative gradient produces a prediction, with
`time_to_drain = -last_value / gradient` hours and the drain time
`last_time + timedelta(hours=time_to_drain)` (3600 seconds per hour). -/
def drain_prediction (last : Reading) (gradient : ℚ) : Option Prediction :=
  if gradient < 0 then
    let h := -(last.value : ℚ) / gradient
    some ⟨h, last.time + 3600 * h⟩
  else none

/-- The eleven readings at minutes 0, 10, ..., 100 of the spec's event
alignment example (times in seconds). -/
def minuteReadings : List Reading :=
  [⟨0, 100⟩, ⟨600, 100⟩, ⟨1200, 100⟩, ⟨1800, 100⟩, ⟨2400, 100⟩, ⟨3000, 100⟩,
    ⟨3600, 100⟩, ⟨4200, 100⟩, ⟨4800, 100⟩, ⟨5400, 100⟩, ⟨6000, 100⟩]

/-- Whitespace as recognized by Python's `str.strip` and `str.split`
(ASCII subset: space, tab, newline, carriage return, vertical tab, form
feed). -/
def isPySpace (c : Char) : Bool :=
  c = ' ' || c = '\t' || c = '\n' || c = '\r' || c = '\x0b' || c = '\x0c'

/-- Python `str.strip()`: drop whitespace from both ends. -/
def pyStrip (s : List Char) : List Char :=
  ((s.dropWhile isPySpace).reverse.dropWhile isPySpace).reverse

/-- Python `str.split("\n")`: split on every newline, keeping empty
pieces. -/
def splitOnNL : List Char → List (List Char)
  | [] => [[]]
  | c :: rest =>
      if c = '\n' then [] :: splitOnNL rest
      else
        match splitOnNL rest with
        | [] => [[c]]
        | t :: ts => (c :: t) :: ts

/-- Accumulator walk behind Python `str.split()` (no argument):
whitespace-separated tokens, empty tokens dropped.  `curr` holds the
current token reversed. -/
def pySplitWSAux : List Char → List Char → List (List Char)
  | curr, [] => if curr = [] then [] else [curr.reverse]
  | curr, c :: rest =>
      if isPySpace c then
        if curr = [] then pySplitWSAux [] rest
        else curr.reverse :: pySplitWSAux [] rest
      else pySplitWSAux (c :: curr) rest

/-- Python `line.split()`. -/
def pySplitWS (s : List Char) : List (List Char) := pySplitWSAux [] s

/-- Numeric value of a decimal digit character. -/
def digitVal (c : Char) : ℕ := c.toNat - 48

/-- Digits-only accumulator for integer parsing. -/
def parseDigitsAux : List Char → ℕ → Option ℕ
  | [], acc => some acc
  | c :: rest, acc =>
      if c.isDigit then parseDigitsAux rest (acc * 10 + digitVal c) else none

/-- A non-empty all-digit string as a natural number. -/
def parseDigits : List Char → Option ℕ
  | [] => none
  | l => parseDigitsAux l 0

/-- Python `int(token)` on a whitespace-free token: optional sign followed
by decimal digits. -/
def parseInt : List Char → Option ℤ
  | '+' :: rest => (parseDigits rest).map (fun n => (n : ℤ))
  | '-' :: rest => (parseDigits rest).map (fun n => -(n : ℤ))
  | l => (parseDigits l).map (fun n => (n : ℤ))

/-- Two decimal digits whose value lies in `[lo, hi]`, consumed from the
front (the two-digit alternatives of a `strptime` field pattern). -/
def parseNum2 (lo hi : ℕ) : List Char → Option (ℕ × List Char)
  | d1 :: d2 :: rest =>
      if d1.isDigit && d2.isDigit then
        let v := digitVal d1 * 10 + digitVal d2
        if lo ≤ v && v ≤ hi then some (v, rest) else none
      else none
  | _ => none

/-- One decimal digit whose value lies in `[lo, hi]`. -/
def parseNum1 (lo hi : ℕ) : List Char → Option (ℕ × List Char)
  | d :: rest =>
      if d.isDigit then
        let v := digitVal d
        if lo ≤ v && v ≤ hi then some (v, rest) else none
      else none
  | _ => none

/-- Exactly four decimal digits (the `%Y` field of `strptime`). -/
def parseNum4 : List Char → Option (ℕ × List Char)
  | d1 :: d2 :: d3 :: d4 :: rest =>
      if d1.isDigit && d2.isDigit && d3.isDigit && d4.isDigit then
        some (digitVal d1 * 1000 + digitVal d2 * 100 + digitVal d3 * 10 +
          digitVal d4, rest)
      else none
  | _ => none

/-- A literal dot. -/
def expectDot : List Char → Option (List Char)
  | '.' :: rest => some rest
  | _ => none

/-- A `strptime` day or month field followed by a literal dot: the
two-digit alternatives are tried first, falling back to a single digit
`1..9`, exactly as the alternation of the generated pattern resolves when
a dot must follow. -/
def parseFieldDot (lo hi : ℕ) (l : List Char) : Option (ℕ × List Char) :=
  match parseNum2 lo hi l with
  | some (v, r) =>
      match expectDot r with
      | some r2 => some (v, r2)
      | none =>
          match parseNum1 (min lo 9) (min hi 9) l with
          | some (v1, r1) =>
              match expectDot r1 with
              | some r3 => some (v1, r3)
              | none => none
          | none => none
  | none =>
      match parseNum1 (min lo 9) (min hi 9) l with
      | some (v1, r1) =>
          match expectDot r1 with
          | some r3 => some (v1, r3)
          | none => none
      | none => none

/-- The `%d.%m.%Y` part of `strptime`, consuming the whole date token:
day 1..31, dot, month 1..12, dot, four-digit year. -/
def parseDate (l : List Char) : Option (ℕ × ℕ × ℕ) :=
  match parseFieldDot 1 31 l with
  | some (d, r1) =>
      match parseFieldDot 1 12 r1 with
      | some (m, r2) =>
          match parseNum4 r2 with
          | some (y, []) => some (d, m, y)
          | _ => none
      | none => none
  | none => none

/-- The `%H%M` part of `strptime`, consuming the whole time token: the
hour pattern tries its two-digit alternatives (values 0..23) before a
single digit, the minute pattern tries two digits (0..59) before one, and
the token must be fully consumed — with backtracking from hour to the
single-digit alternative when the minute cannot finish the token. -/
def parseTimeTok (l : List Char) : Option (ℕ × ℕ) :=
  let tryMin : ℕ → List Char → Option (ℕ × ℕ) := fun h r =>
    match parseNum2 0 59 r with
    | some (m, []) => some (h, m)
    | _ =>
        match parseNum1 0 9 r with
        | some (m, []) => some (h, m)
        | _ => none
  match parseNum2 0 23 l with
  | some (h, r) =>
      match tryMin h r with
      | some hm => some hm
      | none =>
          match parseNum1 0 9 l with
          | some (h1, r1) => tryMin h1 r1
          | none => none
  | none =>
      match parseNum1 0 9 l with
      | some (h1, r1) => tryMin h1 r1
      | none => none

/-- Gregorian leap year, as `datetime` uses it. -/
def isLeap (y : ℕ) : Bool := y % 4 = 0 && (y % 100 ≠ 0 || y % 400 = 0)

/-- Days in a month of a given year, as `datetime` validates them. -/
def daysInMonth (y m : ℕ) : ℕ :=
  if m = 2 then (if isLeap y then 29 else 28)
  else if m = 4 || m = 6 || m = 9 || m = 11 then 30
  else 31

/-- A parsed wall-clock instant, the output of
`datetime.strptime(..., "%d.%m.%Y %H%M")`. -/
structure DateTime where
  year : ℕ
  month : ℕ
  day : ℕ
  hour : ℕ
  minute : ℕ
deriving DecidableEq

/-- The `try` body of `parse_battery_data` on one line: split into exactly
three whitespace-separated tokens, parse date and time per the `strptime`
format (with `datetime`'s year and day-of-month validation), parse the
integer value; any failure makes the whole line malformed. -/
def parseLine (line : List Char) : Option (DateTime × ℤ) :=
  match pySplitWS line with
  | [dateTok, timeTok, valTok] =>
      match parseDate dateTok, parseTimeTok timeTok, parseInt valTok with
      | some (d, m, y), some (h, mi), some v =>
          if 1 ≤ y && 1 ≤ m && m ≤ 12 && d ≤ daysInMonth y m then
            some (⟨y, m, d, h, mi⟩, v)
          else none
      | _, _, _ => none
  | _ => none

/-- `parse_battery_data` from `analyzer.py`: empty or whitespace-only
input yields no readings; otherwise the stripped text is split into lines
and each malformed line is skipped individually (`try`/`except` with
`continue`), which is exactly a `filterMap`. -/
def parse_battery_data (raw : List Char) : List (DateTime × ℤ) :=
  if pyStrip raw = [] then []
  else (splitOnNL (pyStrip raw)).filterMap parseLine

/-! ### Helper lemmas about the segmenter -/

theorem modifyHead_nil_append (L : List (List Reading)) :
    L.modifyHead (fun x => [] ++ x) = L := by
  cases L <;> simp

theorem modifyHead_id_fun (L : List (List Reading)) :
    L.modifyHead (fun x => x) = L := by
  cases L <;> simp

theorem modifyHead_comp (f g : List Reading → List Reading)
    (L : List (List Reading)) :
    (L.modifyHead g).modifyHead f = L.modifyHead (fun x => f (g x)) := by
  cases L <;> simp

/-- The accumulator walk of `calculate_segments` is `chop` with the
accumulated prefix grafted onto the first segment. -/
theorem segmentsAux_eq : ∀ (l : List Reading) (a : Reading) (cur : List Reading),
    l ≠ [] →
    segmentsAux (cur ++ [a]) (a :: l) = (chop (a :: l)).modifyHead (cur ++ ·) := by
  intro l
  induction l with
  | nil => intro a cur h; exact absurd rfl h
  | cons b t ih =>
    intro a cur _
    cases t with
    | nil => simp [segmentsAux, chop]
    | cons c rest =>
      by_cases hr : (b.value - a.value) * (c.value - b.value) < 0
      · have h1 : segmentsAux (cur ++ [a]) (a :: b :: c :: rest) =
            ((cur ++ [a]) ++ [b]) :: segmentsAux ([] ++ [b]) (b :: c :: rest) := by
          simp [segmentsAux, hr]
        have h2 : chop (a :: b :: c :: rest) = [a, b] :: chop (b :: c :: rest) := by
          simp [chop, hr]
        rw [h1, ih b [] (by simp), h2, modifyHead_nil_append]
        simp
      · have h1 : segmentsAux (cur ++ [a]) (a :: b :: c :: rest) =
            segmentsAux ((cur ++ [a]) ++ [b]) (b :: c :: rest) := by
          simp [segmentsAux, hr]
        have h2 : chop (a :: b :: c :: rest) =
            (chop (b :: c :: rest)).modifyHead (a :: ·) := by
          simp [chop, hr]
        rw [h1, ih b (cur ++ [a]) (by simp), h2, modifyHead_comp]
        congr 1
        funext x
        simp

/-- `calculate_segments` computes `chop` on every list of at least two
readings. -/
theorem calculate_segments_eq_chop (dps : List Reading) (h : 2 ≤ dps.length) :
    calculate_segments dps = chop dps := by
  match dps, h with
  | a :: b :: rest, _ =>
    have := segmentsAux_eq (b :: rest) a [] (by simp)
    simpa [calculate_segments, modifyHead_id_fun] using this

theorem chop_ne_nil : ∀ l : List Reading, chop l ≠ [] := by
  intro l
  induction l with
  | nil => simp [chop]
  | cons a t ih =>
    cases t with
    | nil => simp [chop]
    | cons b u =>
      cases u with
      | nil => simp [chop]
      | cons c rest =>
        by_cases hr : (b.value - a.value) * (c.value - b.value) < 0
        · simp [chop, hr]
        · cases h : chop (b :: c :: rest) with
          | nil => exact absurd h ih
          | cons s S => simp [chop, hr, h]

/-- Every segment produced by `chop` on a list of at least two readings
has at least two readings. -/
theorem chop_mem_length : ∀ l : List Reading, 2 ≤ l.length →
    ∀ s ∈ chop l, 2 ≤ s.length := by
  intro l
  induction l with
  | nil => intro h; simp at h
  | cons a t ih =>
    cases t with
    | nil => intro h; simp at h
    | cons b u =>
      cases u with
      | nil =>
        intro _ s hs
        simp [chop] at hs
        subst hs; simp
      | cons c rest =>
        intro _ s hs
        by_cases hr : (b.value - a.value) * (c.value - b.value) < 0
        · simp [chop, hr] at hs
          rcases hs with hs | hs
          · subst hs; simp
          · exact ih (by simp) s hs
        · cases h : chop (b :: c :: rest) with
          | nil => exact absurd h (chop_ne_nil _)
          | cons s0 S0 =>
            simp [chop, hr, h] at hs
            rcases hs with hs | hs
            · subst hs
              have h2 : 2 ≤ s0.length := ih (by simp) s0 (by simp [h])
              simp; omega
            · exact ih (by simp) s (by simp [h, hs])

/-- The first segment of `chop (a :: l)` starts with `a`. -/
theorem chop_head_head : ∀ (a : Reading) (l : List Reading),
    ∃ s S, chop (a :: l) = s :: S ∧ s.head? = some a := by
  intro a l
  cases l with
  | nil => exact ⟨[a], [], by simp [chop], rfl⟩
  | cons b u =>
    cases u with
    | nil => exact ⟨[a, b], [], by simp [chop], rfl⟩
    | cons c rest =>
      by_cases hr : (b.value - a.value) * (c.value - b.value) < 0
      · exact ⟨[a, b], chop (b :: c :: rest), by simp [chop, hr], rfl⟩
      · cases h : chop (b :: c :: rest) with
        | nil => exact absurd h (chop_ne_nil _)
        | cons s0 S0 =>
          exact ⟨a :: s0, S0, by simp [chop, hr, h], rfl⟩

/-- Joining the segments of `chop` (dropping each shared head after the
first segment) reconstructs the input exactly. -/
theorem joinSegs_chop : ∀ l : List Reading, 2 ≤ l.length →
    joinSegs (chop l) = l ∧ tailJoin (chop l) = l.tail := by
  intro l
  induction l with
  | nil => intro h; simp at h
  | cons a t ih =>
    cases t with
    | nil => intro h; simp at h
    | cons b u =>
      cases u with
      | nil => intro _; simp [chop, joinSegs, tailJoin]
      | cons c rest =>
        intro _
        have iht := ih (by simp)
        by_cases hr : (b.value - a.value) * (c.value - b.value) < 0
        · have h1 : chop (a :: b :: c :: rest) = [a, b] :: chop (b :: c :: rest) := by
            simp [chop, hr]
          constructor
          · simp [h1, joinSegs, tailJoin, iht.2]
          · simp [h1, tailJoin, iht.2]
        · cases h : chop (b :: c :: rest) with
          | nil => exact absurd h (chop_ne_nil _)
          | cons s0 S0 =>
            have h1 : chop (a :: b :: c :: rest) = (a :: s0) :: S0 := by
              simp [chop, hr, h]
            have hj : s0 ++ tailJoin S0 = b :: c :: rest := by
              have := iht.1; rwa [h, joinSegs] at this
            constructor
            · simp [h1, joinSegs, tailJoin, hj]
            · have ht : tailJoin ((a :: s0) :: S0) = s0 ++ tailJoin S0 := by
                simp [tailJoin]
              rw [h1, ht, hj]; rfl

/-- Consecutive segments of `chop` share their boundary reading: each
segment's last reading is the next segment's first reading. -/
theorem chop_chain : ∀ l : List Reading, 2 ≤ l.length →
    List.Chain' (fun s t => s.getLast? = t.head?) (chop l) := by
  intro l
  induction l with
  | nil => intro h; simp at h
  | cons a t ih =>
    cases t with
    | nil => intro h; simp at h
    | cons b u =>
      cases u with
      | nil => intro _; simp [chop]
      | cons c rest =>
        intro _
        have iht := ih (by simp)
        by_cases hr : (b.value - a.value) * (c.value - b.value) < 0
        · have h1 : chop (a :: b :: c :: rest) = [a, b] :: chop (b :: c :: rest) := by
            simp [chop, hr]
          obtain ⟨s, S, hs, hhead⟩ := chop_head_head b (c :: rest)
          rw [h1, hs]
          exact List.Chain'.cons (by simp [hhead]) (by rw [hs] at iht; exact iht)
        · cases h : chop (b :: c :: rest) with
          | nil => exact absurd h (chop_ne_nil _)
          | cons s0 S0 =>
            have h1 : chop (a :: b :: c :: rest) = (a :: s0) :: S0 := by
              simp [chop, hr, h]
            rw [h1]
            have hs0 : 2 ≤ s0.length :=
              chop_mem_length (b :: c :: rest) (by simp) s0 (by rw [h]; exact List.mem_cons_self _ _)
            rw [h] at iht
            cases S0 with
            | nil => simp
            | cons s1 S1 =>
              rw [List.chain'_cons] at iht ⊢
              refine ⟨?_, iht.2⟩
              rw [← iht.1]
              cases s0 with
              | nil => simp at hs0
              | cons x xs => simp [List.getLast?_cons_cons]

theorem tailJoin_length : ∀ S : List (List Reading), (∀ s ∈ S, s ≠ []) →
    (tailJoin S).length + S.length = S.flatten.length := by
  intro S
  induction S with
  | nil => intro _; simp [tailJoin]
  | cons s rest ih =>
    intro hne
    have hs : s ≠ [] := hne s (by simp)
    have ht : s.tail.length + 1 = s.length := by
      cases s with
      | nil => exact absurd rfl hs
      | cons x xs => simp
    have := ih (fun t htm => hne t (by simp [htm]))
    simp only [tailJoin, List.flatten_cons, List.length_append, List.length_cons]
    omega

theorem mem_tailJoin : ∀ (S : List (List Reading)) (x : Reading),
    x ∈ tailJoin S → ∃ s ∈ S, x ∈ s := by
  intro S
  induction S with
  | nil => intro x hx; simp [tailJoin] at hx
  | cons s rest ih =>
    intro x hx
    simp only [tailJoin, List.mem_append] at hx
    rcases hx with hx | hx
    · exact ⟨s, by simp, List.mem_of_mem_tail hx⟩
    · obtain ⟨t, ht, hxt⟩ := ih x hx
      exact ⟨t, by simp [ht], hxt⟩

theorem mem_joinSegs : ∀ (S : List (List Reading)) (x : Reading),
    x ∈ joinSegs S → ∃ s ∈ S, x ∈ s := by
  intro S x hx
  cases S with
  | nil => simp [joinSegs] at hx
  | cons s rest =>
    simp only [joinSegs, List.mem_append] at hx
    rcases hx with hx | hx
    · exact ⟨s, by simp, hx⟩
    · obtain ⟨t, ht, hxt⟩ := mem_tailJoin rest x hx
      exact ⟨t, by simp [ht], hxt⟩

/-- Without any sign reversal, `chop` returns the whole list as a single
segment. -/
theorem chop_no_rev : ∀ l : List Reading, revIdx l = [] → chop l = [l] := by
  intro l
  induction l with
  | nil => intro _; simp [chop]
  | cons a t ih =>
    cases t with
    | nil => intro _; simp [chop]
    | cons b u =>
      cases u with
      | nil => intro _; simp [chop]
      | cons c rest =>
        intro hnone
        by_cases hr : (b.value - a.value) * (c.value - b.value) < 0
        · simp [revIdx, hr] at hnone
        · have htail : revIdx (b :: c :: rest) = [] := by
            simp [revIdx, hr] at hnone
            exact hnone
          simp [chop, hr, ih htail]

/-- The boundary indices of the segments of `chop` are exactly the
recursively computed reversal indices. -/
theorem boundaryIndices_chop : ∀ l : List Reading, 2 ≤ l.length →
    boundaryIndices (chop l) = revIdx l := by
  intro l
  induction l with
  | nil => intro h; simp at h
  | cons a t ih =>
    cases t with
    | nil => intro h; simp at h
    | cons b u =>
      cases u with
      | nil => intro _; simp [chop, boundaryIndices, revIdx]
      | cons c rest =>
        intro _
        have iht := ih (by simp)
        by_cases hr : (b.value - a.value) * (c.value - b.value) < 0
        · have h1 : chop (a :: b :: c :: rest) = [a, b] :: chop (b :: c :: rest) := by
            simp [chop, hr]
          cases h : chop (b :: c :: rest) with
          | nil => exact absurd h (chop_ne_nil _)
          | cons s0 S0 =>
            rw [h1, h]
            rw [h] at iht
            simp only [boundaryIndices, List.length_cons, revIdx, if_pos hr]
            rw [← iht]
            simp [boundaryIndices]
        · cases h : chop (b :: c :: rest) with
          | nil => exact absurd h (chop_ne_nil _)
          | cons s0 S0 =>
            have h1 : chop (a :: b :: c :: rest) = (a :: s0) :: S0 := by
              simp [chop, hr, h]
            have hs0 : 2 ≤ s0.length :=
              chop_mem_length (b :: c :: rest) (by simp) s0
                (by rw [h]; exact List.mem_cons_self _ _)
            rw [h1]
            rw [h] at iht
            simp only [revIdx, if_neg hr, ← iht]
            cases S0 with
            | nil => simp [boundaryIndices]
            | cons s1 S1 =>
              simp only [boundaryIndices, List.length_cons, List.map_cons,
                List.map_map]
              congr 1
              · omega
              · apply List.map_congr_left
                intro x _
                simp only [Function.comp_apply]
                omega

/-- Membership in `revIdx` is exactly the spec's interior-reversal
condition: `1 <= i <= n-2` and a strictly negative delta product at
`i`. -/
theorem revIdx_mem : ∀ (l : List Reading) (i : ℕ),
    i ∈ revIdx l ↔ 1 ≤ i ∧ i + 1 < l.length ∧ revCondAt l i := by
  intro l
  induction l with
  | nil =>
    intro i
    constructor
    · intro h; simp [revIdx] at h
    · rintro ⟨h1, h2, _⟩; simp at h2
  | cons a t ih =>
    cases t with
    | nil =>
      intro i
      constructor
      · intro h; simp [revIdx] at h
      · rintro ⟨h1, h2, _⟩; simp at h2
    | cons b u =>
      cases u with
      | nil =>
        intro i
        constructor
        · intro h; simp [revIdx] at h
        · rintro ⟨h1, h2, _⟩; simp at h2; omega
      | cons c rest =>
        intro i
        cases i with
        | zero =>
          constructor
          · intro h
            by_cases hr : (b.value - a.value) * (c.value - b.value) < 0 <;>
              simp [revIdx, hr] at h
          · rintro ⟨h1, _, _⟩; exact absurd h1 (by omega)
        | succ i1 =>
          cases i1 with
          | zero =>
            have hcond1 : revCondAt (a :: b :: c :: rest) 1 ↔
                (b.value - a.value) * (c.value - b.value) < 0 := by
              simp [revCondAt]
            by_cases hr : (b.value - a.value) * (c.value - b.value) < 0
            · simp [revIdx, hr, hcond1]
            · simp [revIdx, hr, hcond1]
              intro h0
              exact absurd ((ih 0).mp h0).1 (by omega)
          | succ k =>
            have hcond : revCondAt (a :: b :: c :: rest) (k + 1 + 1) ↔
                revCondAt (b :: c :: rest) (k + 1) := by
              simp [revCondAt]
            have hstep : (k + 1 + 1) ∈ revIdx (a :: b :: c :: rest) ↔
                (k + 1) ∈ revIdx (b :: c :: rest) := by
              by_cases hr : (b.value - a.value) * (c.value - b.value) < 0 <;>
                simp [revIdx, hr]
            rw [hstep, ih (k + 1)]
            constructor
            · rintro ⟨h1, h2, h3⟩
              refine ⟨by omega, ?_, hcond.mpr h3⟩
              simp at h2 ⊢
              omega
            · rintro ⟨h1, h2, h3⟩
              refine ⟨by omega, ?_, hcond.mp h3⟩
              simp at h2 ⊢
              omega

theorem chain'_getD {R : Reading → Reading → Prop} :
    ∀ (l : List Reading), List.Chain' R l →
    ∀ j, j + 1 < l.length → R (l.getD j default) (l.getD (j + 1) default) := by
  intro l hl j hj
  rw [List.chain'_iff_get] at hl
  have h := hl j (by omega)
  rw [List.getD_eq_getElem l default (by omega : j < l.length),
    List.getD_eq_getElem l default (by omega : j + 1 < l.length)]
  exact h

/-- A strictly monotonic reading sequence (in either direction) has no
interior sign reversal. -/
theorem revIdx_nil_of_mono (l : List Reading)
    (h : List.Chain' (fun r s => r.value < s.value) l ∨
      List.Chain' (fun r s => s.value < r.value) l) :
    revIdx l = [] := by
  by_contra hne
  obtain ⟨i, hi⟩ := List.exists_mem_of_ne_nil _ hne
  obtain ⟨h1, h2, h3⟩ := (revIdx_mem l i).mp hi
  have hi1 : i - 1 + 1 = i := by omega
  rcases h with hc | hc
  · have hA := chain'_getD l hc (i - 1) (by omega)
    rw [hi1] at hA
    have hB := chain'_getD l hc i (by omega)
    have hpos : 0 < ((l.getD i default).value - (l.getD (i - 1) default).value) *
        ((l.getD (i + 1) default).value - (l.getD i default).value) :=
      mul_pos (by omega) (by omega)
    exact absurd h3 (by rw [revCondAt] at *; omega)
  · have hA := chain'_getD l hc (i - 1) (by omega)
    rw [hi1] at hA
    have hB := chain'_getD l hc i (by omega)
    have hpos : 0 < ((l.getD i default).value - (l.getD (i - 1) default).value) *
        ((l.getD (i + 1) default).value - (l.getD i default).value) :=
      mul_pos_of_neg_of_neg (by omega) (by omega)
    exact absurd h3 (by rw [revCondAt] at *; omega)

/-- C1: for every ordered reading sequence of length at least 2, the
segmenter places an interior segment boundary at index i exactly when
`1 <= i <= n-2` and `(value[i]-value[i-1]) * (value[i+1]-value[i]) < 0`
(so a zero delta on either side never splits), and any strictly monotonic
sequence yields exactly one segment containing all readings. -/
theorem c1_segment_boundaries (dps : List Reading) (h : 2 ≤ dps.length) :
    (∀ i : ℕ, i ∈ boundaryIndices (calculate_segments dps) ↔
      1 ≤ i ∧ i + 1 < dps.length ∧ revCondAt dps i)
    ∧ ((List.Chain' (fun r s => r.value < s.value) dps ∨
        List.Chain' (fun r s => s.value < r.value) dps) →
        calculate_segments dps = [dps]) := by
  constructor
  · intro i
    rw [calculate_segments_eq_chop dps h, boundaryIndices_chop dps h,
      revIdx_mem]
  · intro hmono
    rw [calculate_segments_eq_chop dps h,
      chop_no_rev dps (revIdx_nil_of_mono dps hmono)]

/-- Witness for C1 at a concrete four-reading input with one reversal. -/
theorem c1_segment_boundaries_witness :
    (2 ≤ ([⟨0, 1⟩, ⟨1, 3⟩, ⟨2, 2⟩, ⟨3, 5⟩] : List Reading).length) ∧
    ((∀ i : ℕ, i ∈ boundaryIndices
        (calculate_segments [⟨0, 1⟩, ⟨1, 3⟩, ⟨2, 2⟩, ⟨3, 5⟩]) ↔
      1 ≤ i ∧ i + 1 < ([⟨0, 1⟩, ⟨1, 3⟩, ⟨2, 2⟩, ⟨3, 5⟩] : List Reading).length ∧
        revCondAt [⟨0, 1⟩, ⟨1, 3⟩, ⟨2, 2⟩, ⟨3, 5⟩] i)
    ∧ ((List.Chain' (fun r s => r.value < s.value)
          ([⟨0, 1⟩, ⟨1, 3⟩, ⟨2, 2⟩, ⟨3, 5⟩] : List Reading) ∨
        List.Chain' (fun r s => s.value < r.value)
          ([⟨0, 1⟩, ⟨1, 3⟩, ⟨2, 2⟩, ⟨3, 5⟩] : List Reading)) →
        calculate_segments [⟨0, 1⟩, ⟨1, 3⟩, ⟨2, 2⟩, ⟨3, 5⟩] =
          [[⟨0, 1⟩, ⟨1, 3⟩, ⟨2, 2⟩, ⟨3, 5⟩]])) :=
  ⟨by decide, c1_segment_boundaries _ (by decide)⟩

/-- C2: fewer than 2 readings yield no segments; otherwise every segment
has at least 2 readings, joining the segments (dropping each shared
boundary after its first occurrence) reconstructs the input, every input
reading lies in some segment, consecutive segments share their boundary
reading, and the total segment size exceeds the input size by exactly the
number of shared boundaries (each boundary appears in exactly two
adjacent segments). -/
theorem c2_segment_invariants (dps : List Reading) :
    (dps.length < 2 → calculate_segments dps = [])
    ∧ (2 ≤ dps.length →
        (∀ s ∈ calculate_segments dps, 2 ≤ s.length)
        ∧ joinSegs (calculate_segments dps) = dps
        ∧ (∀ r ∈ dps, ∃ s ∈ calculate_segments dps, r ∈ s)
        ∧ List.Chain' (fun s t => s.getLast? = t.head?) (calculate_segments dps)
        ∧ (calculate_segments dps).flatten.length + 1 =
            dps.length + (calculate_segments dps).length) := by
  constructor
  · intro hlt
    cases dps with
    | nil => rfl
    | cons a t =>
      cases t with
      | nil => rfl
      | cons b r => simp only [List.length_cons] at hlt; omega
  · intro h
    rw [calculate_segments_eq_chop dps h]
    refine ⟨chop_mem_length dps h, (joinSegs_chop dps h).1, ?_,
      chop_chain dps h, ?_⟩
    · intro r hr
      apply mem_joinSegs
      rw [(joinSegs_chop dps h).1]
      exact hr
    · cases hc : chop dps with
      | nil => exact absurd hc (chop_ne_nil _)
      | cons s S =>
        have hjoin := (joinSegs_chop dps h).1
        rw [hc] at hjoin
        have hne : ∀ u ∈ S, u ≠ [] := by
          intro u hu hnil
          have h2 := chop_mem_length dps h u
            (by rw [hc]; exact List.mem_cons_of_mem _ hu)
          rw [hnil] at h2
          simp at h2
        have hT := tailJoin_length S hne
        have hlen : dps.length = s.length + (tailJoin S).length := by
          rw [← hjoin]
          simp [joinSegs]
        simp only [List.flatten_cons, List.length_append, List.length_cons]
        omega

/-- Witness for C2 at a concrete three-reading input with one local
extremum shared between two segments. -/
theorem c2_segment_invariants_witness :
    (([⟨0, 1⟩, ⟨1, 3⟩, ⟨2, 2⟩] : List Reading).length < 2 →
      calculate_segments [⟨0, 1⟩, ⟨1, 3⟩, ⟨2, 2⟩] = [])
    ∧ (2 ≤ ([⟨0, 1⟩, ⟨1, 3⟩, ⟨2, 2⟩] : List Reading).length →
        (∀ s ∈ calculate_segments [⟨0, 1⟩, ⟨1, 3⟩, ⟨2, 2⟩], 2 ≤ s.length)
        ∧ joinSegs (calculate_segments [⟨0, 1⟩, ⟨1, 3⟩, ⟨2, 2⟩]) =
            [⟨0, 1⟩, ⟨1, 3⟩, ⟨2, 2⟩]
        ∧ (∀ r ∈ ([⟨0, 1⟩, ⟨1, 3⟩, ⟨2, 2⟩] : List Reading),
            ∃ s ∈ calculate_segments [⟨0, 1⟩, ⟨1, 3⟩, ⟨2, 2⟩], r ∈ s)
        ∧ List.Chain' (fun s t => s.getLast? = t.head?)
            (calculate_segments [⟨0, 1⟩, ⟨1, 3⟩, ⟨2, 2⟩])
        ∧ (calculate_segments [⟨0, 1⟩, ⟨1, 3⟩, ⟨2, 2⟩]).flatten.length + 1 =
            ([⟨0, 1⟩, ⟨1, 3⟩, ⟨2, 2⟩] : List Reading).length +
              (calculate_segments [⟨0, 1⟩, ⟨1, 3⟩, ⟨2, 2⟩]).length) :=
  c2_segment_invariants [⟨0, 1⟩, ⟨1, 3⟩, ⟨2, 2⟩]

/-! ### Segment metrics, event guard and drain prediction -/

/-- C5: the per-segment average gradient is the value change divided by
the duration in hours (0 when the span is zero hours), and for strictly
positive duration its sign agrees with the sign of the value change. -/
theorem c5_avg_gradient (seg : List Reading) :
    (hoursBetween seg.headI (pyLast seg) = 0 → avg_gradient seg = 0)
    ∧ (hoursBetween seg.headI (pyLast seg) ≠ 0 →
        avg_gradient seg = ((pyLast seg).value - seg.headI.value : ℤ) /
          (hoursBetween seg.headI (pyLast seg)))
    ∧ (0 < hoursBetween seg.headI (pyLast seg) →
        (0 < avg_gradient seg ↔ seg.headI.value < (pyLast seg).value)
        ∧ (avg_gradient seg = 0 ↔ (pyLast seg).value = seg.headI.value)
        ∧ (avg_gradient seg < 0 ↔ (pyLast seg).value < seg.headI.value)) := by
  refine ⟨?_, ?_, ?_⟩
  · intro h
    simp [avg_gradient, h]
  · intro h
    simp [avg_gradient, h]
  · intro h
    have hne : hoursBetween seg.headI (pyLast seg) ≠ 0 := ne_of_gt h
    rw [avg_gradient]
    simp only [if_pos hne]
    refine ⟨?_, ?_, ?_⟩
    · rw [lt_div_iff₀ h, zero_mul, Int.cast_pos, sub_pos]
    · rw [div_eq_zero_iff]
      constructor
      · rintro (h1 | h1)
        · exact sub_eq_zero.mp (by exact_mod_cast h1)
        · exact absurd h1 hne
      · intro h1
        left
        exact_mod_cast sub_eq_zero.mpr h1
    · rw [div_lt_iff₀ h, zero_mul, Int.cast_lt_zero, sub_neg]

/-- Witness for C5 at a two-reading segment of one-hour duration. -/
theorem c5_avg_gradient_witness :
    (hoursBetween ([⟨0, 47⟩, ⟨3600, 40⟩] : List Reading).headI
        (pyLast [⟨0, 47⟩, ⟨3600, 40⟩]) = 0 →
      avg_gradient [⟨0, 47⟩, ⟨3600, 40⟩] = 0)
    ∧ (hoursBetween ([⟨0, 47⟩, ⟨3600, 40⟩] : List Reading).headI
        (pyLast [⟨0, 47⟩, ⟨3600, 40⟩]) ≠ 0 →
      avg_gradient [⟨0, 47⟩, ⟨3600, 40⟩] =
        ((pyLast [⟨0, 47⟩, ⟨3600, 40⟩]).value -
          ([⟨0, 47⟩, ⟨3600, 40⟩] : List Reading).headI.value : ℤ) /
          (hoursBetween ([⟨0, 47⟩, ⟨3600, 40⟩] : List Reading).headI
            (pyLast [⟨0, 47⟩, ⟨3600, 40⟩])))
    ∧ (0 < hoursBetween ([⟨0, 47⟩, ⟨3600, 40⟩] : List Reading).headI
        (pyLast [⟨0, 47⟩, ⟨3600, 40⟩]) →
      (0 < avg_gradient [⟨0, 47⟩, ⟨3600, 40⟩] ↔
        ([⟨0, 47⟩, ⟨3600, 40⟩] : List Reading).headI.value <
          (pyLast [⟨0, 47⟩, ⟨3600, 40⟩]).value)
      ∧ (avg_gradient [⟨0, 47⟩, ⟨3600, 40⟩] = 0 ↔
        (pyLast [⟨0, 47⟩, ⟨3600, 40⟩]).value =
          ([⟨0, 47⟩, ⟨3600, 40⟩] : List Reading).headI.value)
      ∧ (avg_gradient [⟨0, 47⟩, ⟨3600, 40⟩] < 0 ↔
        (pyLast [⟨0, 47⟩, ⟨3600, 40⟩]).value <
          ([⟨0, 47⟩, ⟨3600, 40⟩] : List Reading).headI.value)) :=
  c5_avg_gradient [⟨0, 47⟩, ⟨3600, 40⟩]

/-- C8: every gradient division in the pipeline is guarded.  A
zero-duration segment span yields average gradient 0; the event gradient
is 0 for every non-positive matched span; and for a strictly negative
span the two guards genuinely differ: the event gradient is 0 while the
segment metric still divides. -/
theorem c8_division_guards :
    (∀ seg : List Reading, hoursBetween seg.headI (pyLast seg) = 0 →
      avg_gradient seg = 0)
    ∧ (∀ sp ep : Reading, hoursBetween sp ep ≤ 0 →
        event_avg_gradient sp ep = 0)
    ∧ (∀ sp ep : Reading, hoursBetween sp ep < 0 →
        event_avg_gradient sp ep = 0 ∧
          avg_gradient [sp, ep] =
            ((ep.value - sp.value : ℤ) : ℚ) / hoursBetween sp ep) := by
  refine ⟨?_, ?_, ?_⟩
  · intro seg h
    simp [avg_gradient, h]
  · intro sp ep h
    simp [event_avg_gradient, not_lt.mpr h]
  · intro sp ep h
    constructor
    · simp [event_avg_gradient, not_lt.mpr (le_of_lt h)]
    · have hI : ([sp, ep] : List Reading).headI = sp := rfl
      have hL : pyLast [sp, ep] = ep := rfl
      simp only [avg_gradient, hI, hL, if_pos (ne_of_lt h)]

/-- Witness for C8 at a reversed-order pair of readings. -/
theorem c8_division_guards_witness :
    (hoursBetween ([⟨3600, 40⟩, ⟨3600, 47⟩] : List Reading).headI
        (pyLast [⟨3600, 40⟩, ⟨3600, 47⟩]) = 0 →
      avg_gradient [⟨3600, 40⟩, ⟨3600, 47⟩] = 0)
    ∧ (hoursBetween (⟨3600, 40⟩ : Reading) ⟨0, 47⟩ ≤ 0 →
        event_avg_gradient ⟨3600, 40⟩ ⟨0, 47⟩ = 0)
    ∧ (hoursBetween (⟨3600, 40⟩ : Reading) ⟨0, 47⟩ < 0 →
        event_avg_gradient ⟨3600, 40⟩ ⟨0, 47⟩ = 0 ∧
          avg_gradient [⟨3600, 40⟩, ⟨0, 47⟩] =
            ((7 : ℤ) : ℚ) / hoursBetween ⟨3600, 40⟩ ⟨0, 47⟩) :=
  ⟨fun h => (c8_division_guards.1 [⟨3600, 40⟩, ⟨3600, 47⟩] h),
   fun h => (c8_division_guards.2.1 ⟨3600, 40⟩ ⟨0, 47⟩ h),
   fun h => (c8_division_guards.2.2 ⟨3600, 40⟩ ⟨0, 47⟩ h)⟩

/-- C4: the drain predictor produces a prediction exactly for strictly
negative gradients, with the drain horizon `-last_value / gradient` hours
and the drain time that many hours past the last reading; value 10 with
gradient -5 gives 2 hours, and gradients 0 and +3 give no prediction. -/
theorem c4_drain_prediction (last : Reading) (g : ℚ) (t : ℚ) :
    ((drain_prediction last g).isSome ↔ g < 0)
    ∧ (∀ p : Prediction, drain_prediction last g = some p →
        p.hours_to_drain = -(last.value : ℚ) / g ∧
          p.drain_time = last.time + 3600 * p.hours_to_drain)
    ∧ drain_prediction ⟨t, 10⟩ (-5) = some ⟨2, t + 7200⟩
    ∧ drain_prediction ⟨t, 10⟩ 0 = none
    ∧ drain_prediction ⟨t, 10⟩ 3 = none := by
  refine ⟨?_, ?_, ?_, ?_, ?_⟩
  · by_cases hg : g < 0 <;> simp [drain_prediction, hg]
  · intro p hp
    by_cases hg : g < 0
    · simp only [drain_prediction, if_pos hg, Option.some.injEq] at hp
      rw [← hp]
      exact ⟨rfl, rfl⟩
    · simp [drain_prediction, hg] at hp
  · rw [drain_prediction, if_pos (by norm_num : (-5 : ℚ) < 0)]
    norm_num [Prediction.mk.injEq]
  · simp [drain_prediction]
  · norm_num [drain_prediction]

/-- Witness for C4 at a concrete reading and gradient. -/
theorem c4_drain_prediction_witness :
    ((drain_prediction ⟨0, 10⟩ (-5)).isSome ↔ (-5 : ℚ) < 0)
    ∧ (∀ p : Prediction, drain_prediction ⟨0, 10⟩ (-5) = some p →
        p.hours_to_drain = -((10 : ℤ) : ℚ) / (-5) ∧
          p.drain_time = (0 : ℚ) + 3600 * p.hours_to_drain)
    ∧ drain_prediction ⟨(7 : ℚ), 10⟩ (-5) = some ⟨2, 7 + 7200⟩
    ∧ drain_prediction ⟨(7 : ℚ), 10⟩ 0 = none
    ∧ drain_prediction ⟨(7 : ℚ), 10⟩ 3 = none :=
  c4_drain_prediction ⟨0, 10⟩ (-5) 7

/-! ### Variability -/

theorem popVariance_nonneg (xs : List ℚ) : 0 ≤ popVariance xs := by
  apply div_nonneg
  · apply List.sum_nonneg
    intro x hx
    simp only [List.mem_map] at hx
    obtain ⟨y, _, hy⟩ := hx
    rw [← hy]
    positivity
  · positivity

theorem popVariance_singleton (g : ℚ) : popVariance [g] = 0 := by
  simp [popVariance]

/-- C6: the variability of a segment is the population standard deviation
of its positive-duration sub-gradients (its square is the population
variance, and it is the non-negative root), it is 0 when no sub-gradient
qualifies, and it is 0 for every segment of exactly two readings. -/
theorem c6_variability (seg : List Reading) :
    (0 ≤ variability seg)
    ∧ (sub_gradients seg = [] → variability seg = 0)
    ∧ (sub_gradients seg ≠ [] →
        variability seg ^ 2 = ((popVariance (sub_gradients seg) : ℚ) : ℝ))
    ∧ (seg.length = 2 → variability seg = 0) := by
  refine ⟨?_, ?_, ?_, ?_⟩
  · by_cases h : sub_gradients seg = []
    · simp [variability, h]
    · simp only [variability, if_neg h]
      exact Real.sqrt_nonneg _
  · intro h
    simp [variability, h]
  · intro h
    simp only [variability, if_neg h]
    exact Real.sq_sqrt (by exact_mod_cast popVariance_nonneg _)
  · intro h2
    match seg, h2 with
    | [a, b], _ =>
      by_cases hd : 0 < hoursBetween a b
      · have hsg : sub_gradients [a, b] =
            [((b.value - a.value : ℤ) : ℚ) / hoursBetween a b] := by
          simp [sub_gradients, hd]
        simp [variability, hsg, popVariance_singleton]
      · have hsg : sub_gradients [a, b] = [] := by
          simp [sub_gradients, hd]
        simp [variability, hsg]

/-- Witness for C6 at a two-reading segment. -/
theorem c6_variability_witness :
    (0 ≤ variability [⟨0, 47⟩, ⟨3600, 40⟩])
    ∧ (sub_gradients [⟨0, 47⟩, ⟨3600, 40⟩] = [] →
        variability [⟨0, 47⟩, ⟨3600, 40⟩] = 0)
    ∧ (sub_gradients [⟨0, 47⟩, ⟨3600, 40⟩] ≠ [] →
        variability [⟨0, 47⟩, ⟨3600, 40⟩] ^ 2 =
          ((popVariance (sub_gradients [⟨0, 47⟩, ⟨3600, 40⟩]) : ℚ) : ℝ))
    ∧ (([⟨0, 47⟩, ⟨3600, 40⟩] : List Reading).length = 2 →
        variability [⟨0, 47⟩, ⟨3600, 40⟩] = 0) :=
  c6_variability [⟨0, 47⟩, ⟨3600, 40⟩]

/-! ### Trailing 48-hour usage estimator -/

theorem usage_gradients_nonpos : ∀ l : List Reading,
    ∀ g ∈ usage_gradients l, g ≤ 0 := by
  intro l
  induction l with
  | nil => intro g hg; simp [usage_gradients] at hg
  | cons a t ih =>
    cases t with
    | nil => intro g hg; simp [usage_gradients] at hg
    | cons b rest =>
      intro g hg
      simp only [usage_gradients, List.mem_append] at hg
      rcases hg with hg | hg
      · by_cases h1 : 0 < hoursBetween a b
        · rw [if_pos h1] at hg
          by_cases h2 : ((b.value - a.value : ℤ) : ℚ) / hoursBetween a b ≤ 0
          · rw [if_pos h2] at hg
            rw [List.mem_singleton] at hg
            rw [hg]
            exact h2
          · rw [if_neg h2] at hg
            simp at hg
        · rw [if_neg h1] at hg
          simp at hg
      · exact ih g hg

theorem list_sum_nonpos : ∀ l : List ℚ, (∀ x ∈ l, x ≤ 0) → l.sum ≤ 0 := by
  intro l
  induction l with
  | nil => intro _; simp
  | cons x t ih =>
    intro h
    have hx := h x (by simp)
    have ht := ih (fun y hy => h y (by simp [hy]))
    simp only [List.sum_cons]
    linarith

/-- C10: the 48-hour usage estimator never reports a positive (charging)
rate: its result is 0 or the mean of a non-empty list of non-positive
gradients. -/
theorem c10_usage_gradient_nonpos (dps : List Reading) :
    calculate_last_2day_usage_gradient dps ≤ 0 := by
  rw [calculate_last_2day_usage_gradient]
  by_cases hlen : dps.length < 2
  · simp [hlen]
  · rw [if_neg hlen]
    simp only
    by_cases hgs : usage_gradients
        (dps.filter (fun p => (pyLast dps).time - 172800 ≤ p.time)) = []
    · rw [if_pos hgs]
    · rw [if_neg hgs]
      apply div_nonpos_iff.mpr
      apply Or.inr
      constructor
      · exact list_sum_nonpos _ (usage_gradients_nonpos _)
      · positivity

theorem chain_time_le_pyLast : ∀ l : List Reading,
    List.Chain' (fun a b => a.time ≤ b.time) l →
    ∀ p ∈ l, p.time ≤ (pyLast l).time := by
  intro l
  induction l with
  | nil => intro _ p hp; simp at hp
  | cons a t ih =>
    cases t with
    | nil =>
      intro _ p hp
      simp at hp
      rw [hp]
      simp [pyLast]
    | cons b rest =>
      intro hc p hp
      rw [List.chain'_cons] at hc
      have hlast : pyLast (a :: b :: rest) = pyLast (b :: rest) := rfl
      rcases List.mem_cons.mp hp with hp | hp
      · rw [hp, hlast]
        exact le_trans hc.1 (ih hc.2 b (by simp))
      · rw [hlast]
        exact ih hc.2 p hp

/-- C3: for ordered input the estimator restricts to the two-sided
trailing window of 48 hours ending at the last reading, averages the
retained non-positive gradients over positive-duration pairs (0 when none
qualify or fewer than 2 readings), and on the spec's four-point example
returns -10. -/
theorem c3_usage_estimator (dps : List Reading) (t0 : ℚ)
    (hs : List.Chain' (fun a b => a.time ≤ b.time) dps)
    (h2 : 2 ≤ dps.length) :
    (calculate_last_2day_usage_gradient dps =
      (let gs := usage_gradients (dps.filter (fun p =>
          (pyLast dps).time - 172800 ≤ p.time ∧ p.time ≤ (pyLast dps).time));
        if gs = [] then 0 else gs.sum / gs.length))
    ∧ calculate_last_2day_usage_gradient
        [⟨t0, 50⟩, ⟨t0 + 3600, 40⟩, ⟨t0 + 7200, 45⟩, ⟨t0 + 10800, 35⟩] = -10
    ∧ (∀ l : List Reading, l.length < 2 →
        calculate_last_2day_usage_gradient l = 0) := by
  refine ⟨?_, ?_, ?_⟩
  · have hfeq : dps.filter (fun p => (pyLast dps).time - 172800 ≤ p.time) =
        dps.filter (fun p =>
          (pyLast dps).time - 172800 ≤ p.time ∧ p.time ≤ (pyLast dps).time) := by
      apply List.filter_congr
      intro p hp
      have hle := chain_time_le_pyLast dps hs p hp
      simp only [decide_eq_decide]
      exact (and_iff_left hle).symm
    rw [calculate_last_2day_usage_gradient, if_neg (by omega : ¬dps.length < 2)]
    simp only
    rw [hfeq]
  · have hlast : pyLast [⟨t0, 50⟩, ⟨t0 + 3600, 40⟩, ⟨t0 + 7200, 45⟩,
        ⟨t0 + 10800, 35⟩] = ⟨t0 + 10800, 35⟩ := rfl
    have hb1 : hoursBetween ⟨t0, 50⟩ ⟨t0 + 3600, 40⟩ = 1 := by
      rw [hoursBetween]
      ring_nf
    have hb2 : hoursBetween ⟨t0 + 3600, 40⟩ ⟨t0 + 7200, 45⟩ = 1 := by
      rw [hoursBetween]
      ring_nf
    have hb3 : hoursBetween ⟨t0 + 7200, 45⟩ ⟨t0 + 10800, 35⟩ = 1 := by
      rw [hoursBetween]
      ring_nf
    have hfil : List.filter (fun p : Reading => decide ((pyLast [⟨t0, 50⟩, ⟨t0 + 3600, 40⟩,
          ⟨t0 + 7200, 45⟩, ⟨t0 + 10800, 35⟩]).time - 172800 ≤ p.time))
        ([⟨t0, 50⟩, ⟨t0 + 3600, 40⟩, ⟨t0 + 7200, 45⟩, ⟨t0 + 10800, 35⟩] : List Reading) =
        [⟨t0, 50⟩, ⟨t0 + 3600, 40⟩, ⟨t0 + 7200, 45⟩, ⟨t0 + 10800, 35⟩] := by
      rw [List.filter_eq_self]
      intro a ha
      rw [hlast]
      simp only [List.mem_cons, List.not_mem_nil, or_false] at ha
      rcases ha with ha | ha | ha | ha <;> rw [ha] <;>
        simp only [decide_eq_true_eq] <;> linarith
    have hug : usage_gradients [⟨t0, 50⟩, ⟨t0 + 3600, 40⟩, ⟨t0 + 7200, 45⟩,
        ⟨t0 + 10800, 35⟩] = [-10, -10] := by
      simp only [usage_gradients, hb1, hb2, hb3]
      norm_num
    rw [calculate_last_2day_usage_gradient,
      if_neg (by simp : ¬([⟨t0, 50⟩, ⟨t0 + 3600, 40⟩, ⟨t0 + 7200, 45⟩,
        ⟨t0 + 10800, 35⟩] : List Reading).length < 2)]
    simp only
    rw [hfil, hug]
    rw [if_neg (by simp : ¬([-10, -10] : List ℚ) = [])]
    norm_num
  · intro l hl
    rw [calculate_last_2day_usage_gradient, if_pos hl]

/-- Witness for C3 at a concrete sorted two-reading input and t0 = 0. -/
theorem c3_usage_estimator_witness :
    (calculate_last_2day_usage_gradient [⟨0, 50⟩, ⟨3600, 40⟩] =
      (let gs := usage_gradients
          (([⟨0, 50⟩, ⟨3600, 40⟩] : List Reading).filter (fun p =>
            (pyLast [⟨0, 50⟩, ⟨3600, 40⟩]).time - 172800 ≤ p.time ∧
              p.time ≤ (pyLast [⟨0, 50⟩, ⟨3600, 40⟩]).time));
        if gs = [] then 0 else gs.sum / gs.length))
    ∧ calculate_last_2day_usage_gradient
        [⟨0, 50⟩, ⟨0 + 3600, 40⟩, ⟨0 + 7200, 45⟩, ⟨0 + 10800, 35⟩] = -10
    ∧ (∀ l : List Reading, l.length < 2 →
        calculate_last_2day_usage_gradient l = 0) :=
  c3_usage_estimator [⟨0, 50⟩, ⟨3600, 40⟩] 0
    (by simp [List.chain'_cons]) (by simp)

/-! ### Event alignment -/

theorem closestIdxAux_spec (t : ℚ) : ∀ (l : List Reading) (ds0 : List ℚ)
    (bi : ℕ) (bd : ℚ), bi < ds0.length → ds0.getD bi 0 = bd →
    (∀ j < ds0.length, bd ≤ ds0.getD j 0) →
    (∀ j < bi, bd < ds0.getD j 0) →
    isFirstArgmin (ds0 ++ l.map (fun p => |p.time - t|))
      (closestIdxAux t l ds0.length bi bd) := by
  intro l
  induction l with
  | nil =>
    intro ds0 bi bd hbi hval hmin hstrict
    simp only [closestIdxAux, List.map_nil, List.append_nil]
    refine ⟨hbi, ?_, ?_⟩
    · intro j hj
      rw [hval]
      exact hmin j hj
    · intro j hj
      rw [hval]
      exact hstrict j hj
  | cons x rest ih =>
    intro ds0 bi bd hbi hval hmin hstrict
    simp only [closestIdxAux, List.map_cons]
    have hshape : ds0 ++ |x.time - t| :: rest.map (fun p => |p.time - t|) =
        (ds0 ++ [|x.time - t|]) ++ rest.map (fun p => |p.time - t|) := by
      simp
    rw [hshape]
    by_cases hlt : |x.time - t| < bd
    · rw [if_pos hlt]
      have h1 : ds0.length < (ds0 ++ [|x.time - t|]).length := by simp
      have h2 : (ds0 ++ [|x.time - t|]).getD ds0.length 0 = |x.time - t| := by
        rw [List.getD_append_right _ _ _ _ (le_refl _)]
        simp
      have h3 : ∀ j < (ds0 ++ [|x.time - t|]).length,
          |x.time - t| ≤ (ds0 ++ [|x.time - t|]).getD j 0 := by
        intro j hj
        simp only [List.length_append, List.length_cons, List.length_nil] at hj
        by_cases hjl : j < ds0.length
        · rw [List.getD_append _ _ _ _ hjl]
          exact le_of_lt (lt_of_lt_of_le hlt (hmin j hjl))
        · have hje : j = ds0.length := by omega
          rw [hje, h2]
      have h4 : ∀ j < ds0.length, |x.time - t| <
          (ds0 ++ [|x.time - t|]).getD j 0 := by
        intro j hj
        rw [List.getD_append _ _ _ _ hj]
        exact lt_of_lt_of_le hlt (hmin j hj)
      have := ih (ds0 ++ [|x.time - t|]) ds0.length (|x.time - t|) h1 h2 h3 h4
      simpa using this
    · rw [if_neg hlt]
      have h1 : bi < (ds0 ++ [|x.time - t|]).length := by
        simp
        omega
      have h2 : (ds0 ++ [|x.time - t|]).getD bi 0 = bd := by
        rw [List.getD_append _ _ _ _ hbi]
        exact hval
      have h3 : ∀ j < (ds0 ++ [|x.time - t|]).length,
          bd ≤ (ds0 ++ [|x.time - t|]).getD j 0 := by
        intro j hj
        simp only [List.length_append, List.length_cons, List.length_nil] at hj
        by_cases hjl : j < ds0.length
        · rw [List.getD_append _ _ _ _ hjl]
          exact hmin j hjl
        · have hje : j = ds0.length := by omega
          rw [hje, List.getD_append_right _ _ _ _ (le_refl _)]
          simp
          exact le_of_not_lt hlt
      have h4 : ∀ j < bi, bd < (ds0 ++ [|x.time - t|]).getD j 0 := by
        intro j hj
        rw [List.getD_append _ _ _ _ (by omega : j < ds0.length)]
        exact hstrict j hj
      have := ih (ds0 ++ [|x.time - t|]) bi bd h1 h2 h3 h4
      simpa using this

/-- `closestIdx` returns the first index attaining the minimal absolute
time distance. -/
theorem closestIdx_spec (dps : List Reading) (t : ℚ) (hne : dps ≠ []) :
    isFirstArgmin (dps.map (fun p => |p.time - t|)) (closestIdx dps t) := by
  cases dps with
  | nil => exact absurd rfl hne
  | cons x rest =>
    have h := closestIdxAux_spec t rest [|x.time - t|] 0 (|x.time - t|)
      (by simp) (by simp)
      (by intro j hj
          simp only [List.length_cons, List.length_nil] at hj
          have : j = 0 := by omega
          rw [this]
          simp)
      (by intro j hj; omega)
    simpa [closestIdx] using h

/-- C7: with no readings no event gradients are produced; with readings,
each event's start and end are independently matched to the reading at
the first index of minimal absolute time distance (`closestIdx`, proven a
first-argmin), and in the spec's example (readings every 10 minutes, event
start at minute 24) the matched start reading is the one at minute 20. -/
theorem c7_event_alignment (dps : List Reading) (t : ℚ) (hne : dps ≠ []) :
    (∀ evs : List EventT, calculate_event_gradients [] evs = [])
    ∧ isFirstArgmin (dps.map (fun p => |p.time - t|)) (closestIdx dps t)
    ∧ (∀ evs : List EventT,
        (calculate_event_gradients dps evs).map (fun eg => eg.start_point) =
          evs.map (fun ev => dps.getD (closestIdx dps ev.start_time) default)
        ∧ (calculate_event_gradients dps evs).map (fun eg => eg.end_point) =
          evs.map (fun ev => dps.getD (closestIdx dps ev.end_time) default))
    ∧ closestIdx minuteReadings 1440 = 2
    ∧ minuteReadings.getD (closestIdx minuteReadings 1440) default =
        ⟨1200, 100⟩ := by
  refine ⟨?_, closestIdx_spec dps t hne, ?_, ?_, ?_⟩
  · intro evs
    simp [calculate_event_gradients]
  · intro evs
    constructor <;> simp [calculate_event_gradients, hne, List.map_map,
      Function.comp]
  · norm_num [closestIdx, minuteReadings, closestIdxAux, abs, max_def]
  · norm_num [closestIdx, minuteReadings, closestIdxAux, abs, max_def]

/-- Witness for C7 at the spec's minute readings and the event-start
distance target of minute 24. -/
theorem c7_event_alignment_witness :
    (∀ evs : List EventT, calculate_event_gradients [] evs = [])
    ∧ isFirstArgmin (minuteReadings.map (fun p => |p.time - 1440|))
        (closestIdx minuteReadings 1440)
    ∧ (∀ evs : List EventT,
        (calculate_event_gradients minuteReadings evs).map
            (fun eg => eg.start_point) =
          evs.map (fun ev =>
            minuteReadings.getD (closestIdx minuteReadings ev.start_time) default)
        ∧ (calculate_event_gradients minuteReadings evs).map
            (fun eg => eg.end_point) =
          evs.map (fun ev =>
            minuteReadings.getD (closestIdx minuteReadings ev.end_time) default))
    ∧ closestIdx minuteReadings 1440 = 2
    ∧ minuteReadings.getD (closestIdx minuteReadings 1440) default =
        ⟨1200, 100⟩ :=
  c7_event_alignment minuteReadings 1440 (by simp [minuteReadings])

/-! ### Parser -/

theorem filterMap_map_some_sublist (f : List Char → Option (DateTime × ℤ)) :
    ∀ ls : List (List Char),
      ((ls.filterMap f).map some).Sublist (ls.map f) := by
  intro ls
  induction ls with
  | nil => simp
  | cons a t ih =>
    cases hfa : f a with
    | none =>
      rw [List.map_cons, List.filterMap_cons_none hfa]
      exact List.Sublist.cons _ ih
    | some b =>
      rw [List.map_cons, List.filterMap_cons_some hfa, List.map_cons, hfa]
      exact List.Sublist.cons₂ _ ih

/-- C9: whitespace-only input yields no readings; a malformed line is
skipped individually, leaving the parse of the remaining lines unchanged;
the output order is the input line order (the parsed lines form a
sublist of the per-line parse results); and on a concrete input whose
interior lines exhibit every malformation category (wrong field count,
non-numeric value, unparseable date) exactly the two good lines parse, in
order. -/
theorem c9_line_parsing (raw : List Char) (pre post : List (List Char))
    (bad : List Char) :
    (pyStrip raw = [] → parse_battery_data raw = [])
    ∧ (parseLine bad = none →
        (pre ++ bad :: post).filterMap parseLine =
          (pre ++ post).filterMap parseLine)
    ∧ ((parse_battery_data raw).map some).Sublist
        ((splitOnNL (pyStrip raw)).map parseLine)
    ∧ parse_battery_data ("   \n\t  ").data = []
    ∧ parse_battery_data
        ("24.8.2025 1007 47\nbadline\n24.8.2025 1007\n24.8.2025 1007 abc\n99.99.2025 1007 47\n24.8.2025 1211 43").data =
      [(⟨2025, 8, 24, 10, 7⟩, 47), (⟨2025, 8, 24, 12, 11⟩, 43)] := by
  refine ⟨?_, ?_, ?_, ?_, ?_⟩
  · intro h
    simp [parse_battery_data, h]
  · intro h
    rw [List.filterMap_append, List.filterMap_append,
      List.filterMap_cons_none h]
  · rw [parse_battery_data]
    by_cases h : pyStrip raw = []
    · rw [if_pos h]
      simp
    · rw [if_neg h]
      exact filterMap_map_some_sublist parseLine _
  · decide
  · decide

/-- Witness for C9: the bad-line hypothesis discharged on a concrete
malformed line, inserted between two good lines. -/
theorem c9_line_parsing_witness :
    parseLine ("badline").data = none ∧
      (([("24.8.2025 1007 47").data] ++ ("badline").data ::
          [("24.8.2025 1211 43").data]).filterMap parseLine =
        ([("24.8.2025 1007 47").data] ++
          [("24.8.2025 1211 43").data]).filterMap parseLine) :=
  ⟨by decide,
    (c9_line_parsing [] [("24.8.2025 1007 47").data] [("24.8.2025 1211 43").data]
      (("badline").data)).2.1 (by decide)⟩
